import Mathlib

/-!
Shallow embedding of the set-genome mutation engine.

Embedded source files:
* src/src/genes/connections.rs — the connection gene, its id-derivation
  scheme, weight perturbation and recombination;
* src/src/mutations/add_recurrent_connection.rs — the
  add-recurrent-connection operator;
* src/src/mutations/mod.rs — the probability-gated mutation dispatcher.

Modelling conventions: machine floats (f32 and f64) are modelled as
rationals; the random number generator is an explicit stream of draws in
the interval [0,1), consumed in order; the unbounded while-loop inside
weight perturbation is a fuel-indexed recursion that returns none when
the fuel is exhausted, so termination of the loop is the existence of a
sufficient fuel.
-/

namespace SetGenome

/-- Modelled from the spec: the gene identity type lives in a genes module
that is not under src/; the spec describes it as an opaque, totally
ordered, hashable 64-bit value.  Modelled as a natural number. -/
abbrev Id := ℕ

/-- Connection gene from src/src/genes/connections.rs: input and output
endpoints, the weight, and the private id-derivation counter. -/
structure Connection where
  input : Id
  output : Id
  weight : ℚ
  id_counter : ℕ
  deriving DecidableEq, Repr

/-- Constructor from src/src/genes/connections.rs: `Connection::new` takes
input, weight, output (in that order) and starts the counter at 0. -/
def Connection.new (input : Id) (weight : ℚ) (output : Id) : Connection :=
  { input := input, output := output, weight := weight, id_counter := 0 }

/-- Connection identity from src/src/genes/connections.rs: the
`(input, output)` pair.  Equality, hashing and ordering of connections in
the source all go through this pair, so the hash sets of connections
distinguish elements exactly by it. -/
def Connection.id (c : Connection) : Id × Id := (c.input, c.output)

/-- `Connection::next_id` from src/src/genes/connections.rs: hash input,
output and the current counter, increment the counter, return the digest
as the fresh id.  The concrete hash is the external seahash crate, outside
this repository, so it is taken as an explicit parameter here. -/
def Connection.next_id (hash : Id → Id → ℕ → Id) (c : Connection) : Id × Connection :=
  (hash c.input c.output c.id_counter, { c with id_counter := c.id_counter + 1 })

/-- The connection instance obtained after `k` successive `next_id` calls. -/
def iterateNextId (hash : Id → Id → ℕ → Id) (c : Connection) : ℕ → Connection
  | 0 => c
  | k + 1 => (Connection.next_id hash (iterateNextId hash c k)).2

/-- The ids produced by `n` successive `next_id` calls on one instance. -/
def nextIds (hash : Id → Id → ℕ → Id) (c : Connection) (n : ℕ) : List Id :=
  (List.range n).map fun k => (Connection.next_id hash (iterateNextId hash c k)).1

lemma iterateNextId_input (hash : Id → Id → ℕ → Id) (c : Connection) :
    ∀ k, (iterateNextId hash c k).input = c.input := by
  intro k
  induction k with
  | zero => rfl
  | succ k ih => simp [iterateNextId, Connection.next_id, ih]

lemma iterateNextId_output (hash : Id → Id → ℕ → Id) (c : Connection) :
    ∀ k, (iterateNextId hash c k).output = c.output := by
  intro k
  induction k with
  | zero => rfl
  | succ k ih => simp [iterateNextId, Connection.next_id, ih]

lemma iterateNextId_counter (hash : Id → Id → ℕ → Id) (c : Connection) :
    ∀ k, (iterateNextId hash c k).id_counter = c.id_counter + k := by
  intro k
  induction k with
  | zero => rfl
  | succ k ih => simp [iterateNextId, Connection.next_id, ih]; omega

lemma nextIds_eq_map (hash : Id → Id → ℕ → Id) (c : Connection) (n : ℕ) :
    nextIds hash c n =
      (List.range n).map fun k => hash c.input c.output (c.id_counter + k) := by
  unfold nextIds
  refine List.map_congr_left ?_
  intro k _
  simp [Connection.next_id, iterateNextId_input, iterateNextId_output,
    iterateNextId_counter]

/-- `Gene::recombine` for connections, from src/src/genes/connections.rs:
keep every field of the self parent except the weight, which is taken from
the other parent. -/
def Connection.recombine (self other : Connection) : Connection :=
  { self with weight := other.weight }

/-- C6: on a single connection instance the counter advances by exactly one
per `next_id` call, and — whenever the hash is collision-free on the
counter stream for the instance's fixed endpoints, the spec's stated
proviso — the ids produced by successive calls are pairwise distinct; in
particular the 10,000 first calls repeat no value. -/
theorem next_id_fresh (hash : Id → Id → ℕ → Id) (c : Connection)
    (hinj : Function.Injective (hash c.input c.output)) :
    (∀ k, (Connection.next_id hash (iterateNextId hash c k)).2.id_counter
        = (iterateNextId hash c k).id_counter + 1) ∧
    (∀ n, (nextIds hash c n).Nodup) ∧ (nextIds hash c 10000).Nodup := by
  have hall : ∀ n, (nextIds hash c n).Nodup := by
    intro n
    rw [nextIds_eq_map]
    refine (List.nodup_range n).map ?_
    intro a b hab
    have := hinj hab
    omega
  exact ⟨fun k => rfl, hall, hall 10000⟩

/-- C6 witness: instantiating the hash with the counter projection (which
is injective for fixed endpoints) on a concrete connection. -/
theorem next_id_fresh_witness :
    (∀ k, (Connection.next_id (fun _ _ k => k)
        (iterateNextId (fun _ _ k => k) (Connection.new 0 0 1) k)).2.id_counter
        = (iterateNextId (fun _ _ k => k) (Connection.new 0 0 1) k).id_counter + 1) ∧
    (∀ n, (nextIds (fun _ _ k => k) (Connection.new 0 0 1) n).Nodup) ∧
    (nextIds (fun _ _ k => k) (Connection.new 0 0 1) 10000).Nodup :=
  next_id_fresh (fun _ _ k => k) (Connection.new 0 0 1) (fun _ _ h => h)

/-- C7: recombination keeps the self parent's input, output and counter and
adopts the other parent's weight. -/
theorem recombine_contract (a b : Connection) :
    (a.recombine b).input = a.input ∧ (a.recombine b).output = a.output ∧
    (a.recombine b).id_counter = a.id_counter ∧ (a.recombine b).weight = b.weight :=
  ⟨rfl, rfl, rfl, rfl⟩

/-- A randomness stream: the successive uniform draws of the generator,
each required to lie in [0,1) by `validStream`. -/
def validStream (rng : ℕ → ℚ) : Prop := ∀ i, 0 ≤ rng i ∧ rng i < 1

/-- Dropping the first `k` draws of a stream. -/
def shiftStream (rng : ℕ → ℚ) (k : ℕ) : ℕ → ℚ := fun i => rng (i + k)

lemma validStream_shift {rng : ℕ → ℚ} (h : validStream rng) (k : ℕ) :
    validStream (shiftStream rng k) := fun i => h (i + k)

/-- The Irwin–Hall style initial perturbation from
src/src/genes/connections.rs: the sum of 12 uniform draws minus 6. -/
def irwinHall (rng : ℕ → ℚ) : ℚ := ((List.range 12).map rng).sum - 6

/-- The while-loop of `Connection::weight_perturbation` from
src/src/genes/connections.rs: while `weight + perturbation` exceeds the cap
in either direction, replace the perturbation by its negated half.  Fuel
counts the remaining permitted loop iterations; none means the loop did not
exit within the given fuel. -/
def contractLoop (weight cap : ℚ) : ℚ → ℕ → Option ℚ
  | p, 0 =>
    if weight + p > cap ∨ weight + p < -cap then none else some (weight + p)
  | p, fuel + 1 =>
    if weight + p > cap ∨ weight + p < -cap then contractLoop weight cap (-p / 2) fuel
    else some (weight + p)

/-- `Connection::weight_perturbation` from src/src/genes/connections.rs:
start from the Irwin–Hall sample and contract until the result fits the
cap. -/
def weight_perturbation (weight cap : ℚ) (rng : ℕ → ℚ) (fuel : ℕ) : Option ℚ :=
  contractLoop weight cap (irwinHall rng) fuel

lemma contractLoop_zero (weight cap p : ℚ) :
    contractLoop weight cap p 0 =
      if weight + p > cap ∨ weight + p < -cap then none else some (weight + p) := rfl

lemma contractLoop_succ (weight cap p : ℚ) (fuel : ℕ) :
    contractLoop weight cap p (fuel + 1) =
      if weight + p > cap ∨ weight + p < -cap then contractLoop weight cap (-p / 2) fuel
      else some (weight + p) := rfl

lemma contractLoop_bounds {weight cap : ℚ} :
    ∀ fuel p v, contractLoop weight cap p fuel = some v → -cap ≤ v ∧ v ≤ cap := by
  intro fuel
  induction fuel with
  | zero =>
    intro p v h
    rw [contractLoop_zero] at h
    by_cases hg : weight + p > cap ∨ weight + p < -cap
    · rw [if_pos hg] at h
      exact absurd h (by simp)
    · rw [if_neg hg] at h
      push_neg at hg
      have := Option.some.inj h
      constructor <;> [linarith [hg.2]; linarith [hg.1]]
  | succ fuel ih =>
    intro p v h
    rw [contractLoop_succ] at h
    by_cases hg : weight + p > cap ∨ weight + p < -cap
    · rw [if_pos hg] at h
      exact ih _ _ h
    · rw [if_neg hg] at h
      push_neg at hg
      have := Option.some.inj h
      constructor <;> [linarith [hg.2]; linarith [hg.1]]

lemma contractLoop_mono {weight cap : ℚ} :
    ∀ fuel fuel' p v, fuel ≤ fuel' → contractLoop weight cap p fuel = some v →
      contractLoop weight cap p fuel' = some v := by
  intro fuel
  induction fuel with
  | zero =>
    intro fuel' p v _ h
    rw [contractLoop_zero] at h
    by_cases hg : weight + p > cap ∨ weight + p < -cap
    · rw [if_pos hg] at h
      exact absurd h (by simp)
    · rw [if_neg hg] at h
      cases fuel' with
      | zero => rw [contractLoop_zero, if_neg hg]; exact h
      | succ k => rw [contractLoop_succ, if_neg hg]; exact h
  | succ fuel ih =>
    intro fuel' p v hle h
    rw [contractLoop_succ] at h
    by_cases hg : weight + p > cap ∨ weight + p < -cap
    · rw [if_pos hg] at h
      cases fuel' with
      | zero => omega
      | succ k =>
        rw [contractLoop_succ, if_pos hg]
        exact ih _ _ _ (by omega) h
    · rw [if_neg hg] at h
      cases fuel' with
      | zero => rw [contractLoop_zero, if_neg hg]; exact h
      | succ k => rw [contractLoop_succ, if_neg hg]; exact h

lemma contractLoop_exits {weight cap : ℚ} (hw0 : -cap ≤ weight) (hw1 : weight ≤ cap) :
    ∀ k p, |p| ≤ cap * 2 ^ k → ∃ v, contractLoop weight cap p (k + 1) = some v := by
  have hcap : 0 ≤ cap := by linarith
  intro k
  induction k with
  | zero =>
    intro p hp
    rw [pow_zero, mul_one] at hp
    have hp1 : -cap ≤ p := (abs_le.mp hp).1
    have hp2 : p ≤ cap := (abs_le.mp hp).2
    by_cases hg : weight + p > cap ∨ weight + p < -cap
    · have hg' : ¬(weight + -p / 2 > cap ∨ weight + -p / 2 < -cap) := by
        rcases hg with h1 | h2
        · push_neg
          constructor <;> linarith
        · push_neg
          constructor <;> linarith
      refine ⟨weight + -p / 2, ?_⟩
      rw [contractLoop_succ, if_pos hg, contractLoop_zero, if_neg hg']
    · exact ⟨weight + p, by rw [contractLoop_succ, if_neg hg]⟩
  | succ k ih =>
    intro p hp
    by_cases hg : weight + p > cap ∨ weight + p < -cap
    · have hp' : |(-p / 2)| ≤ cap * 2 ^ k := by
        rw [abs_div, abs_neg]
        rw [pow_succ] at hp
        have h2 : |(2 : ℚ)| = 2 := by norm_num
        rw [h2]
        linarith [hp]
      obtain ⟨v, hv⟩ := ih (-p / 2) hp'
      refine ⟨v, ?_⟩
      rw [contractLoop_succ, if_pos hg]
      exact hv
    · exact ⟨weight + p, by rw [contractLoop_succ, if_neg hg]⟩

lemma irwinHall_bounds {rng : ℕ → ℚ} (hv : validStream rng) :
    -6 ≤ irwinHall rng ∧ irwinHall rng ≤ 6 := by
  obtain ⟨a0, b0⟩ := hv 0
  obtain ⟨a1, b1⟩ := hv 1
  obtain ⟨a2, b2⟩ := hv 2
  obtain ⟨a3, b3⟩ := hv 3
  obtain ⟨a4, b4⟩ := hv 4
  obtain ⟨a5, b5⟩ := hv 5
  obtain ⟨a6, b6⟩ := hv 6
  obtain ⟨a7, b7⟩ := hv 7
  obtain ⟨a8, b8⟩ := hv 8
  obtain ⟨a9, b9⟩ := hv 9
  obtain ⟨a10, b10⟩ := hv 10
  obtain ⟨a11, b11⟩ := hv 11
  unfold irwinHall
  rw [show List.range 12 = [0, 1, 2, 3, 4, 5, 6, 7, 8, 9, 10, 11] from rfl]
  simp only [List.map_cons, List.map_nil, List.sum_cons, List.sum_nil]
  constructor <;> linarith

lemma weight_perturbation_some {weight cap : ℚ} (rng : ℕ → ℚ) (hv : validStream rng)
    (hw0 : -cap ≤ weight) (hw1 : weight ≤ cap) (k : ℕ) (hk : 6 ≤ cap * 2 ^ k) :
    ∀ fuel, k + 1 ≤ fuel →
      ∃ v, weight_perturbation weight cap rng fuel = some v ∧ -cap ≤ v ∧ v ≤ cap := by
  intro fuel hf
  have hih := irwinHall_bounds hv
  have habs : |irwinHall rng| ≤ cap * 2 ^ k := by
    rw [abs_le]
    constructor <;> linarith [hih.1, hih.2]
  obtain ⟨v, hsome⟩ := contractLoop_exits hw0 hw1 k (irwinHall rng) habs
  have hres := contractLoop_mono (k + 1) fuel _ _ hf hsome
  exact ⟨v, hres, (contractLoop_bounds fuel _ _ hres).1, (contractLoop_bounds fuel _ _ hres).2⟩

/-- C2: for every weight within the cap, every positive cap and every
randomness stream, the perturbation loop terminates (some fuel suffices,
and every larger fuel gives the same value) and the returned value lies in
[-cap, cap]. -/
theorem weight_perturbation_terminates_in_bounds (weight cap : ℚ) (rng : ℕ → ℚ)
    (hv : validStream rng) (hw : |weight| ≤ cap) (hc : 0 < cap) :
    ∃ fuel v, weight_perturbation weight cap rng fuel = some v ∧
      -cap ≤ v ∧ v ≤ cap ∧
      ∀ fuel', fuel ≤ fuel' → weight_perturbation weight cap rng fuel' = some v := by
  obtain ⟨k, hk⟩ := pow_unbounded_of_one_lt (6 / cap) (show (1 : ℚ) < 2 by norm_num)
  have hk' : 6 ≤ cap * 2 ^ k := by
    have h1 : (6 : ℚ) < 2 ^ k * cap := (div_lt_iff₀ hc).mp hk
    calc (6 : ℚ) ≤ 2 ^ k * cap := h1.le
      _ = cap * 2 ^ k := mul_comm _ _
  obtain ⟨v, h1, h2, h3⟩ :=
    weight_perturbation_some rng hv (abs_le.mp hw).1 (abs_le.mp hw).2 k hk' (k + 1) le_rfl
  exact ⟨k + 1, v, h1, h2, h3, fun fuel' hf => contractLoop_mono _ _ _ _ hf h1⟩

/-- C2 witness: weight 0, cap 1, the all-zero stream. -/
theorem weight_perturbation_terminates_in_bounds_witness :
    ∃ fuel v, weight_perturbation 0 1 (fun _ => 0) fuel = some v ∧
      -1 ≤ v ∧ v ≤ 1 ∧
      ∀ fuel', fuel ≤ fuel' → weight_perturbation 0 1 (fun _ => 0) fuel' = some v :=
  weight_perturbation_terminates_in_bounds 0 1 (fun _ => 0)
    (fun _ => ⟨le_refl 0, by norm_num⟩) (by norm_num) (by norm_num)

/-- C8: perturbing weight 0.99 under cap 1.0 exits the contraction loop
within 40 iterations for every randomness stream and returns a value in
[-1, 1]. -/
theorem weight_perturbation_converges_099 (rng : ℕ → ℚ) (hv : validStream rng) :
    ∃ v, weight_perturbation (99 / 100) 1 rng 40 = some v ∧ -1 ≤ v ∧ v ≤ 1 := by
  obtain ⟨v, h1, h2, h3⟩ :=
    weight_perturbation_some rng hv (show -1 ≤ (99 : ℚ) / 100 by norm_num)
      (show (99 : ℚ) / 100 ≤ 1 by norm_num) 3 (by norm_num) 40 (by norm_num)
  exact ⟨v, h1, h2, h3⟩

/-- C8 witness: the all-zero stream. -/
theorem weight_perturbation_converges_099_witness :
    ∃ v, weight_perturbation (99 / 100) 1 (fun _ => 0) 40 = some v ∧ -1 ≤ v ∧ v ≤ 1 :=
  weight_perturbation_converges_099 (fun _ => 0) (fun _ => ⟨le_refl 0, by norm_num⟩)

lemma contractLoop_two_one_diverges : ∀ fuel p, |p| ≤ 1 / 2 → contractLoop 2 1 p fuel = none := by
  intro fuel
  induction fuel with
  | zero =>
    intro p hp
    rw [contractLoop_zero, if_pos]
    left
    linarith [(abs_le.mp hp).1]
  | succ fuel ih =>
    intro p hp
    rw [contractLoop_succ, if_pos (by left; linarith [(abs_le.mp hp).1])]
    apply ih
    rw [abs_div, abs_neg, show |(2 : ℚ)| = 2 from by norm_num]
    linarith [hp, abs_nonneg p]

/-- C9: outside the precondition the loop can diverge — at weight 2, cap 1
the constant stream 13/24 (a valid stream, with Irwin–Hall sample 1/2)
makes the contraction loop run forever: no fuel is ever enough. -/
theorem weight_perturbation_diverges_above_cap :
    validStream (fun _ => (13 : ℚ) / 24) ∧ (1 : ℚ) < |(2 : ℚ)| ∧
      ∀ fuel, weight_perturbation 2 1 (fun _ => (13 : ℚ) / 24) fuel = none := by
  refine ⟨fun _ => by norm_num, by norm_num, ?_⟩
  intro fuel
  have hih : irwinHall (fun _ => (13 : ℚ) / 24) = 1 / 2 := by
    unfold irwinHall
    rw [show List.range 12 = [0, 1, 2, 3, 4, 5, 6, 7, 8, 9, 10, 11] from rfl]
    simp only [List.map_cons, List.map_nil, List.sum_cons, List.sum_nil]
    norm_num
  unfold weight_perturbation
  rw [hih]
  exact contractLoop_two_one_diverges fuel (1 / 2)
    (by rw [abs_of_nonneg (by norm_num : (0 : ℚ) ≤ 1 / 2)])

/-- Modelled from the spec: the Genome type lives in a genome module that is
not under src/.  Per the spec it owns node collections partitioned by role
and two independent hash sets of connection genes; node genes are
represented here by their Ids, and each hash set by the list of its
elements (distinct on connection identity). -/
structure Genome where
  inputs : List Id
  hidden : List Id
  outputs : List Id
  feed_forward : List Connection
  recurrent : List Connection
  deriving DecidableEq, Repr

/-- Modelled from the spec: the closed set of typed infeasibility outcomes
of section 7 (the error module is not under src/); the variant used by
src/src/mutations/add_recurrent_connection.rs is
`CouldNotAddRecurrentConnection`. -/
inductive MutationError where
  | couldNotAddRecurrentConnection
  | couldNotAddConnection
  | couldNotRemoveNode
  | couldNotRemoveConnection
  | couldNotRemoveRecurrentConnection
  deriving DecidableEq, Repr

/-- `MutationResult` from src/src/mutations/mod.rs. -/
abbrev MutationResult := Except MutationError Unit

instance : DecidableEq MutationResult := fun a b =>
  match a, b with
  | Except.ok (), Except.ok () => isTrue rfl
  | Except.error x, Except.error y =>
    if h : x = y then isTrue (by rw [h]) else isFalse (by intro hc; cases hc; exact h rfl)
  | Except.ok (), Except.error _ => isFalse (by intro hc; cases hc)
  | Except.error _, Except.ok () => isFalse (by intro hc; cases hc)

/-- Start-node sequence of the operator in
src/src/mutations/add_recurrent_connection.rs: inputs, then hidden, then
outputs. -/
def arcStartSeq (g : Genome) : List Id := g.inputs ++ g.hidden ++ g.outputs

/-- Number of starts the operator examines: `inputs.len() + hidden.len()`. -/
def arcStartCount (g : Genome) : ℕ := g.inputs.length + g.hidden.length

/-- The random skip into the cyclic start sequence:
`(rng.gen::<f64>() * (inputs.len() + hidden.len()) as f64).floor() as usize`.
(`Rat.floor` followed by `Int.toNat`, matching floor-then-saturating-cast;
for draws in [0,1) the product is nonnegative, so the cast is exact.) -/
def arcOffset (g : Genome) (u : ℚ) : ℕ := (u * (arcStartCount g : ℚ)).floor.toNat

lemma arcOffset_eq_zero {g : Genome} {u : ℚ} (h0 : 0 ≤ u) (h1 : u < 1)
    (hc : arcStartCount g = 1) : arcOffset g u = 0 := by
  unfold arcOffset
  rw [hc, Nat.cast_one, mul_one, Rat.floor_def', ← Rat.floor_def,
    Int.floor_eq_zero_iff.mpr ⟨h0, h1⟩]
  rfl

/-- The starts actually examined: `arcStartCount g` consecutive elements of
the cyclic start sequence, beginning at the offset (cycle + skip + take in
the source). -/
def arcWindow (g : Genome) (offset : ℕ) : List Id :=
  (List.range (arcStartCount g)).map fun i =>
    (arcStartSeq g).getD ((offset + i) % (arcStartSeq g).length) 0

/-- `genome.recurrent.contains(&Connection::new(start, 0.0, end))`: the
source hash set compares connections by their `(input, output)` identity
only, so this is membership of the id pair. -/
def recurrentContains (g : Genome) (s e : Id) : Bool :=
  g.recurrent.any fun c => c.input == s && c.output == e

/-- The inner `find` of the operator: the first end node (hidden then
output order) that is not the start and not already recurrently connected
from the start. -/
def findRecEnd (g : Genome) (s : Id) : Option Id :=
  (g.hidden ++ g.outputs).find? fun e => e != s && !recurrentContains g s e

/-- `Mutations::add_recurrent_connection` from
src/src/mutations/add_recurrent_connection.rs.  The first draw of the
stream picks the offset; on the first start in the examined window with an
admissible end, a connection with a freshly perturbed weight is inserted
and the operator returns ok; if the window is exhausted it returns the
typed failure and the untouched genome.  The fuel feeds the inner
weight-perturbation loop; none means that loop did not exit within fuel. -/
def add_recurrent_connection (g : Genome) (rng : ℕ → ℚ) (fuel : ℕ) :
    Option (MutationResult × Genome) :=
  match (arcWindow g (arcOffset g (rng 0))).findSome?
      (fun s => (findRecEnd g s).map fun e => (s, e)) with
  | some (s, e) =>
    (weight_perturbation 0 1 (shiftStream rng 1) fuel).map fun w =>
      (Except.ok (), { g with recurrent := g.recurrent ++ [Connection.new s w e] })
  | none => some (Except.error MutationError.couldNotAddRecurrentConnection, g)

/-- The claim-side feasibility predicate, following the spec's words: some
pair with start anywhere in inputs, hidden or outputs, end in hidden or
outputs, end distinct from start, and no recurrent `(start, end)` present.
Stated separately from the operator so the two can be compared. -/
def specLegalPairExists (g : Genome) : Bool :=
  (g.inputs ++ g.hidden ++ g.outputs).any fun s =>
    (g.hidden ++ g.outputs).any fun e => e != s && !recurrentContains g s e

/-- The empty genome. -/
def emptyGenome : Genome := ⟨[], [], [], [], []⟩

/-- Scenario A of the spec: one input node (id 1), one output node (id 2),
no hidden nodes, no connections. -/
def scenarioA : Genome := ⟨[1], [], [2], [], []⟩

/-- A genome on which the operator's bounded window misses the only legal
pairs: one input (id 1), two outputs (ids 2, 3), and both `(1,2)` and
`(1,3)` already recurrently connected.  The window examines exactly one
start (`inputs.len() + hidden.len() = 1`), always node 1, so the legal
pairs `(2,3)` and `(3,2)` are never tried. -/
def windowMissGenome : Genome :=
  ⟨[1], [], [2, 3], [], [Connection.new 1 0 2, Connection.new 1 0 3]⟩

/-- C3: whenever the operator reports the typed failure, the returned
genome is (deep-)equal to the genome it was given. -/
theorem add_recurrent_connection_atomic_on_failure (g : Genome) (rng : ℕ → ℚ)
    (fuel : ℕ) (g' : Genome) (e : MutationError)
    (h : add_recurrent_connection g rng fuel = some (Except.error e, g')) : g' = g := by
  unfold add_recurrent_connection at h
  cases hfs : (arcWindow g (arcOffset g (rng 0))).findSome?
      (fun s => (findRecEnd g s).map fun e => (s, e)) with
  | none =>
    rw [hfs] at h
    simp only [Option.some.injEq, Prod.mk.injEq] at h
    exact h.2.symm
  | some se =>
    obtain ⟨s, e'⟩ := se
    rw [hfs] at h
    cases hwp : weight_perturbation 0 1 (shiftStream rng 1) fuel with
    | none => rw [hwp] at h; exact absurd h (by simp)
    | some w => rw [hwp] at h; simp at h

/-- C3 witness: on the empty genome the operator fails and hands back the
same genome. -/
theorem add_recurrent_connection_atomic_on_failure_witness :
    add_recurrent_connection emptyGenome (fun _ => 0) 0 =
        some (Except.error MutationError.couldNotAddRecurrentConnection, emptyGenome) ∧
      emptyGenome = emptyGenome :=
  ⟨by decide,
    add_recurrent_connection_atomic_on_failure emptyGenome (fun _ => 0) 0 emptyGenome
      MutationError.couldNotAddRecurrentConnection (by decide)⟩

/-- C1 counterexample: on `windowMissGenome` a legal pair in the claim's
sense exists (start 2, end 3), yet the operator reports the typed failure —
the examined window covers only `inputs.len() + hidden.len() = 1` start.
So failure is not equivalent to the absence of a legal pair over all of
inputs, hidden and outputs. -/
theorem add_recurrent_connection_misses_legal_pair :
    specLegalPairExists windowMissGenome = true ∧
      add_recurrent_connection windowMissGenome (fun _ => 0) 4 =
        some (Except.error MutationError.couldNotAddRecurrentConnection,
          windowMissGenome) := by
  constructor
  · decide
  · have h0 : arcOffset windowMissGenome ((fun _ : ℕ => (0 : ℚ)) 0) = 0 :=
      arcOffset_eq_zero (by norm_num) (by norm_num) rfl
    unfold add_recurrent_connection
    rw [h0]
    rfl

/-- C1 as amended: the operator fails (returning the typed outcome and the
untouched genome) exactly when no examined start — the window of
`inputs.len() + hidden.len()` cyclically consecutive nodes of the start
sequence beginning at the sampled offset — admits an end node in
hidden ++ outputs that is distinct from it and not already recurrently
connected from it. -/
theorem add_recurrent_connection_error_iff_window_exhausted (g : Genome)
    (rng : ℕ → ℚ) (fuel : ℕ) :
    add_recurrent_connection g rng fuel =
        some (Except.error MutationError.couldNotAddRecurrentConnection, g) ↔
      ∀ s ∈ arcWindow g (arcOffset g (rng 0)), ∀ e ∈ g.hidden ++ g.outputs,
        e = s ∨ recurrentContains g s e = true := by
  have key : (arcWindow g (arcOffset g (rng 0))).findSome?
      (fun s => (findRecEnd g s).map fun e => (s, e)) = none ↔
      ∀ s ∈ arcWindow g (arcOffset g (rng 0)), ∀ e ∈ g.hidden ++ g.outputs,
        e = s ∨ recurrentContains g s e = true := by
    rw [List.findSome?_eq_none_iff]
    refine forall_congr' fun s => forall_congr' fun _ => ?_
    rw [Option.map_eq_none']
    unfold findRecEnd
    rw [List.find?_eq_none]
    refine forall_congr' fun e => forall_congr' fun _ => ?_
    simp only [Bool.and_eq_true, bne_iff_ne, ne_eq, Bool.not_eq_true',
      not_and, Bool.not_eq_false]
    constructor
    · intro h
      by_cases hes : e = s
      · exact Or.inl hes
      · exact Or.inr (h hes)
    · intro h hes
      rcases h with h | h
      · exact absurd h hes
      · exact h
  constructor
  · intro h
    unfold add_recurrent_connection at h
    cases hfs : (arcWindow g (arcOffset g (rng 0))).findSome?
        (fun s => (findRecEnd g s).map fun e => (s, e)) with
    | none => exact key.mp hfs
    | some se =>
      obtain ⟨s, e⟩ := se
      rw [hfs] at h
      cases hwp : weight_perturbation 0 1 (shiftStream rng 1) fuel with
      | none => rw [hwp] at h; exact absurd h (by simp)
      | some w => rw [hwp] at h; simp at h
  · intro h
    unfold add_recurrent_connection
    rw [key.mpr h]

lemma recurrentContains_eq_false {g : Genome} {s e : Id} :
    recurrentContains g s e = false ↔
      ∀ c ∈ g.recurrent, ¬(c.input = s ∧ c.output = e) := by
  constructor
  · intro h c hc hce
    have htrue : recurrentContains g s e = true := by
      unfold recurrentContains
      rw [List.any_eq_true]
      exact ⟨c, hc, by simp [hce.1, hce.2]⟩
    rw [h] at htrue
    exact Bool.false_ne_true htrue
  · intro h
    cases hb : recurrentContains g s e with
    | false => rfl
    | true =>
      unfold recurrentContains at hb
      rw [List.any_eq_true] at hb
      obtain ⟨c, hc, hce⟩ := hb
      simp only [Bool.and_eq_true, beq_iff_eq] at hce
      exact absurd hce (h c hc)

/-- C4: whenever the operator succeeds, the genome it returns extends the
recurrent set by one connection whose `(input, output)` identity was absent
before the call; under the hash-set representation invariant (identities
pairwise distinct) the set's cardinality therefore grows by exactly one,
and the invariant is preserved. -/
theorem add_recurrent_connection_success_unique (g : Genome) (rng : ℕ → ℚ)
    (fuel : ℕ) (g' : Genome) (hnd : (g.recurrent.map Connection.id).Nodup)
    (h : add_recurrent_connection g rng fuel = some (Except.ok (), g')) :
    ∃ s e w, recurrentContains g s e = false ∧
      g'.recurrent = g.recurrent ++ [Connection.new s w e] ∧
      g'.recurrent.length = g.recurrent.length + 1 ∧
      (g'.recurrent.map Connection.id).Nodup := by
  unfold add_recurrent_connection at h
  cases hfs : (arcWindow g (arcOffset g (rng 0))).findSome?
      (fun s => (findRecEnd g s).map fun e => (s, e)) with
  | none => rw [hfs] at h; simp at h
  | some se =>
    obtain ⟨s, e⟩ := se
    rw [hfs] at h
    cases hwp : weight_perturbation 0 1 (shiftStream rng 1) fuel with
    | none => rw [hwp] at h; exact absurd h (by simp)
    | some w =>
      rw [hwp] at h
      simp only [Option.map_some', Option.some.injEq] at h
      obtain ⟨s', _, hfind⟩ := List.exists_of_findSome?_eq_some hfs
      rw [Option.map_eq_some'] at hfind
      obtain ⟨e', he', heq⟩ := hfind
      rw [Prod.mk.injEq] at heq
      obtain ⟨rfl, rfl⟩ := heq
      have hp := List.find?_some he'
      simp only [Bool.and_eq_true, Bool.not_eq_true'] at hp
      have hcontains : recurrentContains g s' e' = false := hp.2
      have hnotmem : (s', e') ∉ g.recurrent.map Connection.id := by
        intro hmem
        rw [List.mem_map] at hmem
        obtain ⟨c, hc, hid⟩ := hmem
        unfold Connection.id at hid
        rw [Prod.mk.injEq] at hid
        exact recurrentContains_eq_false.mp hcontains c hc hid
      have hg' : ({ g with recurrent := g.recurrent ++ [Connection.new s' w e'] } :
          Genome) = g' := congrArg Prod.snd h
      refine ⟨s', e', w, hcontains, ?_, ?_, ?_⟩
      · rw [← hg']
      · rw [← hg']
        simp
      · rw [← hg']
        show ((g.recurrent ++ [Connection.new s' w e']).map Connection.id).Nodup
        rw [List.map_append]
        refine hnd.append (List.nodup_singleton _) ?_
        intro a ha hb
        rw [show (List.map Connection.id [Connection.new s' w e'])
            = [(s', e')] from rfl] at hb
        rw [List.mem_singleton] at hb
        rw [hb] at ha
        exact hnotmem ha

lemma irwinHall_shift_zero : irwinHall (shiftStream (fun _ : ℕ => (0 : ℚ)) 1) = -6 := by
  unfold irwinHall shiftStream
  rw [show List.range 12 = [0, 1, 2, 3, 4, 5, 6, 7, 8, 9, 10, 11] from rfl]
  simp only [List.map_cons, List.map_nil, List.sum_cons, List.sum_nil]
  norm_num

lemma weight_perturbation_shift_zero :
    weight_perturbation 0 1 (shiftStream (fun _ : ℕ => (0 : ℚ)) 1) 4 = some (3 / 4) := by
  unfold weight_perturbation
  rw [irwinHall_shift_zero]
  rw [contractLoop_succ, if_pos (by norm_num : (0 : ℚ) + -6 > 1 ∨ (0 : ℚ) + -6 < -1)]
  rw [show (-(-6 : ℚ) / 2) = 3 from by norm_num]
  rw [contractLoop_succ, if_pos (by norm_num : (0 : ℚ) + 3 > 1 ∨ (0 : ℚ) + 3 < -1)]
  rw [show (-(3 : ℚ) / 2) = -3 / 2 from by norm_num]
  rw [contractLoop_succ,
    if_pos (by norm_num : (0 : ℚ) + -3 / 2 > 1 ∨ (0 : ℚ) + -3 / 2 < -1)]
  rw [show (-(-3 / 2 : ℚ) / 2) = 3 / 4 from by norm_num]
  rw [contractLoop_succ,
    if_neg (by norm_num : ¬((0 : ℚ) + 3 / 4 > 1 ∨ (0 : ℚ) + 3 / 4 < -1))]
  norm_num

/-- Scenario A's genome after the successful first insertion under the
all-zero stream (the Irwin–Hall sample -6 contracts to 3/4). -/
def scenarioAfter : Genome := ⟨[1], [], [2], [], [Connection.new 1 (3 / 4) 2]⟩

/-- C4 witness: the concrete successful call on scenario A with the
all-zero stream. -/
theorem add_recurrent_connection_success_unique_witness :
    ∃ s e w, recurrentContains scenarioA s e = false ∧
      scenarioAfter.recurrent = scenarioA.recurrent ++ [Connection.new s w e] ∧
      scenarioAfter.recurrent.length = scenarioA.recurrent.length + 1 ∧
      (scenarioAfter.recurrent.map Connection.id).Nodup :=
  add_recurrent_connection_success_unique scenarioA (fun _ => 0) 4 scenarioAfter
    (by decide)
    (by
      have h0 : arcOffset scenarioA ((fun _ : ℕ => (0 : ℚ)) 0) = 0 :=
        arcOffset_eq_zero (by norm_num) (by norm_num) rfl
      unfold add_recurrent_connection
      rw [h0]
      rw [show (arcWindow scenarioA 0).findSome?
          (fun s => (findRecEnd scenarioA s).map fun e => (s, e)) = some (1, 2) from rfl]
      rw [weight_perturbation_shift_zero]
      rfl)

/-- C5: on the scenario-A genome the first call succeeds for every valid
randomness stream (given enough fuel for the inner loop), inserting exactly
the recurrent connection 1 → 2 with a weight in [-1, 1]; a second call on
the result fails for every valid stream with the typed outcome, leaving the
recurrent set of size one. -/
theorem saturation_scenario (rng1 rng2 : ℕ → ℚ) (fuel1 fuel2 : ℕ)
    (hv1 : validStream rng1) (hv2 : validStream rng2) (hf1 : 4 ≤ fuel1) :
    ∃ g1 w, add_recurrent_connection scenarioA rng1 fuel1 = some (Except.ok (), g1) ∧
      g1.recurrent = [Connection.new 1 w 2] ∧ -1 ≤ w ∧ w ≤ 1 ∧
      add_recurrent_connection g1 rng2 fuel2 =
        some (Except.error MutationError.couldNotAddRecurrentConnection, g1) ∧
      g1.recurrent.length = 1 := by
  obtain ⟨w, hw, hw1, hw2⟩ :=
    weight_perturbation_some (shiftStream rng1 1) (validStream_shift hv1 1)
      (show -(1 : ℚ) ≤ 0 by norm_num) (show (0 : ℚ) ≤ 1 by norm_num) 3
      (by norm_num) fuel1 (by omega)
  refine ⟨⟨[1], [], [2], [], [Connection.new 1 w 2]⟩, w, ?_, rfl, hw1, hw2, ?_, rfl⟩
  · have h0 : arcOffset scenarioA (rng1 0) = 0 :=
      arcOffset_eq_zero (hv1 0).1 (hv1 0).2 rfl
    unfold add_recurrent_connection
    rw [h0]
    rw [show (arcWindow scenarioA 0).findSome?
        (fun s => (findRecEnd scenarioA s).map fun e => (s, e)) = some (1, 2) from rfl]
    rw [hw]
    rfl
  · have h0 : arcOffset (⟨[1], [], [2], [], [Connection.new 1 w 2]⟩ : Genome)
        (rng2 0) = 0 :=
      arcOffset_eq_zero (hv2 0).1 (hv2 0).2 rfl
    unfold add_recurrent_connection
    rw [h0]
    rfl

/-- C5 witness: both calls with the all-zero stream and fuel 4. -/
theorem saturation_scenario_witness :
    ∃ g1 w, add_recurrent_connection scenarioA (fun _ => 0) 4 = some (Except.ok (), g1) ∧
      g1.recurrent = [Connection.new 1 w 2] ∧ -1 ≤ w ∧ w ≤ 1 ∧
      add_recurrent_connection g1 (fun _ => 0) 4 =
        some (Except.error MutationError.couldNotAddRecurrentConnection, g1) ∧
      g1.recurrent.length = 1 :=
  saturation_scenario (fun _ => 0) (fun _ => 0) 4 4
    (fun _ => ⟨le_refl 0, by norm_num⟩) (fun _ => ⟨le_refl 0, by norm_num⟩)
    (by norm_num)

/-- Modelled from the spec: the activation kind of a node gene (the genes
module defining it is not under src/); an opaque enumerated kind. -/
abbrev Activation := ℕ

/-- Modelled from the spec: the bodies of the operators other than
`add_recurrent_connection` live in source files that are not under src/.
The dispatcher of src/src/mutations/mod.rs only depends on their call
signatures — `change_weights`, `change_activation` and `add_node` are
called as plain statements (they return no failure), while the add/remove
operators return a `MutationResult` — so they are taken here as arbitrary
functions of exactly those signatures. -/
structure MutationOps where
  change_weights : ℚ → ℚ → Genome → (ℕ → ℚ) → Genome
  change_activation : List Activation → Genome → (ℕ → ℚ) → Genome
  add_node : List Activation → Genome → (ℕ → ℚ) → Genome
  add_connection : Genome → (ℕ → ℚ) → MutationResult × Genome
  remove_node : Genome → (ℕ → ℚ) → MutationResult × Genome
  remove_connection : Genome → (ℕ → ℚ) → MutationResult × Genome
  remove_recurrent_connection : Genome → (ℕ → ℚ) → MutationResult × Genome

/-- The `Mutations` configuration enum from src/src/mutations/mod.rs: each
variant carries its trigger chance and operator-specific parameters. -/
inductive Mutations where
  | ChangeWeights (chance percent_perturbed weight_cap : ℚ)
  | ChangeActivation (chance : ℚ) (activation_pool : List Activation)
  | AddNode (chance : ℚ) (activation_pool : List Activation)
  | AddConnection (chance : ℚ)
  | AddRecurrentConnection (chance : ℚ)
  | RemoveNode (chance : ℚ)
  | RemoveConnection (chance : ℚ)
  | RemoveRecurrentConnection (chance : ℚ)

/-- `Mutations::mutate` from src/src/mutations/mod.rs: draw one uniform
value; if it is below the variant's chance apply the corresponding
operator, otherwise skip; the arms for `ChangeWeights`, `AddNode` and
`ChangeActivation` discard the operator call's unit value and fall through
to `Ok(())`, while the other arms return the operator's result.  Arm order
follows the source's match. -/
def mutate (ops : MutationOps) (m : Mutations) (g : Genome) (rng : ℕ → ℚ)
    (fuel : ℕ) : Option (MutationResult × Genome) :=
  match m with
  | .ChangeWeights chance percent_perturbed weight_cap =>
    if rng 0 < chance then
      some (Except.ok (),
        ops.change_weights percent_perturbed weight_cap g (shiftStream rng 1))
    else some (Except.ok (), g)
  | .AddNode chance activation_pool =>
    if rng 0 < chance then
      some (Except.ok (), ops.add_node activation_pool g (shiftStream rng 1))
    else some (Except.ok (), g)
  | .AddConnection chance =>
    if rng 0 < chance then some (ops.add_connection g (shiftStream rng 1))
    else some (Except.ok (), g)
  | .AddRecurrentConnection chance =>
    if rng 0 < chance then add_recurrent_connection g (shiftStream rng 1) fuel
    else some (Except.ok (), g)
  | .ChangeActivation chance activation_pool =>
    if rng 0 < chance then
      some (Except.ok (), ops.change_activation activation_pool g (shiftStream rng 1))
    else some (Except.ok (), g)
  | .RemoveNode chance =>
    if rng 0 < chance then some (ops.remove_node g (shiftStream rng 1))
    else some (Except.ok (), g)
  | .RemoveConnection chance =>
    if rng 0 < chance then some (ops.remove_connection g (shiftStream rng 1))
    else some (Except.ok (), g)
  | .RemoveRecurrentConnection chance =>
    if rng 0 < chance then some (ops.remove_recurrent_connection g (shiftStream rng 1))
    else some (Except.ok (), g)

/-- C10: whatever the operator bodies do and whether or not the chance
gate fires, the dispatcher applied to a `ChangeWeights`, `ChangeActivation`
or `AddNode` variant always returns ok — only the add/remove variants can
propagate a typed error. -/
theorem mutate_infallible_variants_ok (ops : MutationOps) (g : Genome)
    (rng : ℕ → ℚ) (fuel : ℕ) (chance percent_perturbed weight_cap : ℚ)
    (activation_pool : List Activation) :
    (∃ g1, mutate ops (Mutations.ChangeWeights chance percent_perturbed weight_cap)
        g rng fuel = some (Except.ok (), g1)) ∧
    (∃ g2, mutate ops (Mutations.ChangeActivation chance activation_pool)
        g rng fuel = some (Except.ok (), g2)) ∧
    (∃ g3, mutate ops (Mutations.AddNode chance activation_pool)
        g rng fuel = some (Except.ok (), g3)) := by
  have e1 : mutate ops (Mutations.ChangeWeights chance percent_perturbed weight_cap)
      g rng fuel =
      if rng 0 < chance then
        some (Except.ok (),
          ops.change_weights percent_perturbed weight_cap g (shiftStream rng 1))
      else some (Except.ok (), g) := rfl
  have e2 : mutate ops (Mutations.ChangeActivation chance activation_pool) g rng fuel =
      if rng 0 < chance then
        some (Except.ok (), ops.change_activation activation_pool g (shiftStream rng 1))
      else some (Except.ok (), g) := rfl
  have e3 : mutate ops (Mutations.AddNode chance activation_pool) g rng fuel =
      if rng 0 < chance then
        some (Except.ok (), ops.add_node activation_pool g (shiftStream rng 1))
      else some (Except.ok (), g) := rfl
  by_cases hc : rng 0 < chance
  · exact ⟨⟨_, by rw [e1, if_pos hc]⟩, ⟨_, by rw [e2, if_pos hc]⟩,
      ⟨_, by rw [e3, if_pos hc]⟩⟩
  · exact ⟨⟨g, by rw [e1, if_neg hc]⟩, ⟨g, by rw [e2, if_neg hc]⟩,
      ⟨g, by rw [e3, if_neg hc]⟩⟩

end SetGenome
